import Mathlib

/-!
Verification of the chromosome-name remapper (`remap.py`).

The program reads SAM/BAM header lines, loads a tab-separated mapping table
from a file, and rewrites the `SN:<name>` field of `@SQ` lines.  Lines are
modelled as `List Char` (Python `str` is a sequence of code points; the
header format is ASCII, and the model fixes the ASCII meaning of Python's
`\w`, `\s` and `str.strip()` character classes).

The regular expression `SN_TAG_PATTERN = re.compile(r'\bSN:(\S+)')` and the
call `SN_TAG_PATTERN.sub(self.replace_sn, line)` are embedded operationally:
a left-to-right scan produces the list of non-overlapping leftmost matches
of the pattern (`segRun`, one `SNSeg.tag` per match, `SNSeg.lit` for every
unmatched character), and the substitution renders each match through the
`replace_sn` callback.  The scan is a single-pass automaton whose states
record how much of the literal text `SN:` has been read at a candidate
match position, exactly as the regex engine tries the pattern at each
position: a word boundary `\b` before the `S`, the literal `SN:`, then a
greedy nonempty run of non-whitespace characters as the captured group.
-/

namespace ChromosomeMapping

/-- Characters of Python's regex class `\s` (and of `str.strip()`),
restricted to ASCII: space, tab, newline, carriage return, vertical tab,
form feed. -/
def isPySpace (c : Char) : Bool :=
  c == ' ' || c == '\t' || c == '\n' || c == '\r' || c == '\x0b' || c == '\x0c'

/-- Characters of Python's regex class `\w` (used by the word boundary
`\b`), restricted to ASCII: letters, digits and underscore. -/
def isWordChar (c : Char) : Bool :=
  c.isAlphanum || c == '_'

/-- The mapping dictionary `self.mapping_dict`: an association list in
insertion order, the model of a Python `dict` from names to names. -/
abbrev Dict := List (List Char × List Char)

/-- First-match association lookup.  On a dictionary with pairwise distinct
keys (the invariant of every Python `dict`) this is `dict.get`. -/
def lookupKey : Dict → List Char → Option (List Char)
  | [], _ => none
  | (a, b) :: t, k => if a = k then some b else lookupKey t k

/-- Python `d.get(k, dflt)`. -/
def dictGet (d : Dict) (k dflt : List Char) : List Char :=
  match lookupKey d k with
  | some v => v
  | none => dflt

/-- Whether a key is present, Python `k in d`. -/
def containsKey : Dict → List Char → Bool
  | [], _ => false
  | (a, _) :: t, k => if a = k then true else containsKey t k

/-- Python `dict` assignment `d[k] = v`: overwrite the binding in place if
the key is present, otherwise append the new binding at the end
(insertion-order semantics of `dict`). -/
def dictInsert (m : Dict) (k v : List Char) : Dict :=
  if containsKey m k then m.map (fun p => if p.1 = k then (k, v) else p)
  else m ++ [(k, v)]

/-- Python `str.strip()` with no argument (ASCII whitespace, `isPySpace`). -/
def pystrip (s : List Char) : List Char :=
  ((s.dropWhile isPySpace).reverse.dropWhile isPySpace).reverse

/-- Python `str.split("\t")`: every field, empty fields kept; the empty
string yields the single field `""`, so the result is never empty. -/
def splitTab : List Char → List (List Char)
  | [] => [[]]
  | c :: rest =>
    if c = '\t' then [] :: splitTab rest
    else
      match splitTab rest with
      | [] => [[c]]
      | f :: fs => (c :: f) :: fs

/-- One iteration of the loop in `load_chromosome_mappings`:
`parts = line.strip().split("\t")`; skip the line when `parts` is empty or
`parts[0].strip()` is empty; otherwise the key is `parts[0]` and the value
is `parts[1]` when that exists and `parts[1].strip()` is truthy, else the
key itself.  Returns the binding the line contributes, if any. -/
def parseLine (s : List Char) : Option (List Char × List Char) :=
  match splitTab (pystrip s) with
  | [] => none
  | p0 :: rest =>
    if pystrip p0 = [] then none
    else
      some (p0,
        match rest with
        | [] => p0
        | p1 :: _ => if pystrip p1 = [] then p0 else p1)

/-- One iteration of the loop body of `load_chromosome_mappings` acting on
the dictionary built so far: skip the line or perform
`mapping[original] = remapped`. -/
def loadStep (m : Dict) (s : List Char) : Dict :=
  match parseLine s with
  | none => m
  | some kv => dictInsert m kv.1 kv.2

/-- The body of `load_chromosome_mappings`: fold the per-line parser over
the lines of the mapping file, building the dictionary with Python `dict`
assignment, starting from the empty dictionary. -/
def load_chromosome_mappings (lines : List (List Char)) : Dict :=
  lines.foldl loadStep []

/-- Specification helper for the overwrite semantics: one line's
contribution to the final value stored under `k`. -/
def lastBindingStep (k : List Char) (acc : Option (List Char)) (s : List Char) :
    Option (List Char) :=
  match parseLine s with
  | some kv => if kv.1 = k then some kv.2 else acc
  | none => acc

/-- Specification helper for the overwrite semantics: the value contributed
for key `k` by the last line of the file that binds `k`, if any. -/
def lastBinding (lines : List (List Char)) (k : List Char) : Option (List Char) :=
  lines.foldl (lastBindingStep k) none

/-- The callback `replace_sn`: a match with captured group `name` is
replaced by `"SN:" + self.mapping_dict.get(name, name)`. -/
def replace_sn (d : Dict) (name : List Char) : List Char :=
  'S' :: 'N' :: ':' :: dictGet d name name

/-- One element of the decomposition of a line by the matches of
`\bSN:(\S+)`: either a character the pattern does not match, or the
captured group of one match (the matched text is `SN:` followed by the
group). -/
inductive SNSeg where
  | lit (c : Char)
  | tag (name : List Char)
  deriving DecidableEq

/-- State of the left-to-right matching scan for `\bSN:(\S+)`.
`normal pw` scans for a match start, `pw` recording whether the previous
character is a word character (for the `\b` test at the next candidate
position); `s1`, `s2`, `s3` hold after reading `S`, `SN`, `SN:` of a
candidate match; `inName acc` is inside the greedy `\S+` group with `acc`
the characters captured so far. -/
inductive ScanSt where
  | normal (pw : Bool)
  | s1
  | s2
  | s3
  | inName (acc : List Char)
  deriving DecidableEq

/-- One character step of the matching scan: the segments it emits and the
next state.  A candidate match starts at an `S` preceded by a word
boundary; when the candidate fails the buffered characters are emitted as
literals — re-trying the pattern at the buffered positions cannot succeed
(`N`, `:` do not begin `SN:`, and a second `S` right after the first fails
the word boundary), which the emitted transitions account for. -/
def segStep (st : ScanSt) (c : Char) : List SNSeg × ScanSt :=
  match st with
  | .normal pw =>
    if c = 'S' ∧ pw = false then ([], .s1)
    else ([.lit c], .normal (isWordChar c))
  | .s1 =>
    if c = 'N' then ([], .s2)
    else ([.lit 'S', .lit c], .normal (isWordChar c))
  | .s2 =>
    if c = ':' then ([], .s3)
    else ([.lit 'S', .lit 'N', .lit c], .normal (isWordChar c))
  | .s3 =>
    if isPySpace c then ([.lit 'S', .lit 'N', .lit ':', .lit c], .normal (isWordChar c))
    else ([], .inName [c])
  | .inName acc =>
    if isPySpace c then ([.tag acc, .lit c], .normal (isWordChar c))
    else ([], .inName (acc ++ [c]))

/-- End of input: flush a pending candidate.  A complete pending group is a
match (the pattern has nothing after `(\S+)`); an incomplete candidate is
literal text. -/
def segFlush : ScanSt → List SNSeg
  | .normal _ => []
  | .s1 => [.lit 'S']
  | .s2 => [.lit 'S', .lit 'N']
  | .s3 => [.lit 'S', .lit 'N', .lit ':']
  | .inName acc => [.tag acc]

/-- Run the matching scan over a list of characters. -/
def segRun : ScanSt → List Char → List SNSeg
  | st, [] => segFlush st
  | st, c :: cs => (segStep st c).1 ++ segRun (segStep st c).2 cs

/-- The compiled pattern `SN_TAG_PATTERN = re.compile(r'\bSN:(\S+)')`,
embedded as the decomposition of a line into the leftmost non-overlapping
matches of the pattern and the unmatched characters.  The scan starts in
`normal false`: at the start of the string `\b` holds before a word
character. -/
def SN_TAG_PATTERN (line : List Char) : List SNSeg :=
  segRun (.normal false) line

/-- Concatenation of the images of a list, used to reassemble a line from
its decomposition. -/
def concatMap (f : α → List β) : List α → List β
  | [] => []
  | x :: xs => f x ++ concatMap f xs

/-- Render one segment of the decomposition under substitution: unmatched
characters are copied, each match is replaced by `replace_sn` applied to
its captured group. -/
def renderSeg (d : Dict) : SNSeg → List Char
  | .lit c => [c]
  | .tag n => replace_sn d n

/-- Render one segment as the original text it came from (a match came
from the text `SN:` followed by its group). -/
def flattenSeg : SNSeg → List Char
  | .lit c => [c]
  | .tag n => 'S' :: 'N' :: ':' :: n

/-- The call `SN_TAG_PATTERN.sub(self.replace_sn, line)`: every match of
the pattern in `line` is replaced by the result of the callback on its
captured group; `re.sub` with no `count` argument replaces all
non-overlapping matches, left to right. -/
def subSN (d : Dict) (line : List Char) : List Char :=
  concatMap (renderSeg d) (SN_TAG_PATTERN line)

/-- The captured groups of the matches of the pattern in a line, in order:
the chromosome names the substitution looks up. -/
def tagNames : List SNSeg → List (List Char)
  | [] => []
  | .lit _ :: ss => tagNames ss
  | .tag n :: ss => n :: tagNames ss

/-- The SN names of a line: captured groups of `SN_TAG_PATTERN` on it. -/
def snNames (line : List Char) : List (List Char) :=
  tagNames (SN_TAG_PATTERN line)

/-- Python `line.startswith("@SQ")`. -/
def startsWithSQ : List Char → Bool
  | a :: b :: c :: _ => a == '@' && b == 'S' && c == 'Q'
  | _ => false

/-- Rejoin tab-separated fields with tabs, the inverse of `splitTab`. -/
def joinTab : List (List Char) → List Char
  | [] => []
  | [f] => f
  | f :: fs => f ++ '\t' :: joinTab fs

/-- The transformer `remap_chromosome_in_line`: lines beginning with `@SQ`
get the pattern substitution, every other line is returned unchanged. -/
def remap_chromosome_in_line (d : Dict) (line : List Char) : List Char :=
  if startsWithSQ line then subSN d line else line

/-- The body of `process_genomic_data`: transform each input line in
order, one output line per input line. -/
def process_genomic_data (d : Dict) (stdin : List (List Char)) : List (List Char) :=
  stdin.map (remap_chromosome_in_line d)

/-- The inverse of a mapping table: every binding reversed.  Meaningful as
a table when the values of `d` are pairwise distinct. -/
def invert (d : Dict) : Dict :=
  d.map (fun p => (p.2, p.1))

/-- Outcome of opening and reading the mapping file, the abstraction of
the file system for the driver: a successful read of its lines, a
`FileNotFoundError`, or an `OSError` with a message. -/
inductive FileOutcome where
  | ok (lines : List (List Char))
  | notFound
  | osError (emsg : List Char)
  deriving DecidableEq

/-- Text of the f-string `f"Error: File '{self.mapping_file}' not found."`
printed to `stderr` by the `FileNotFoundError` handler. -/
def notFoundMsg (path : List Char) : List Char :=
  ['E', 'r', 'r', 'o', 'r', ':', ' ', 'F', 'i', 'l', 'e', ' ', '\''] ++ path ++
    ['\'', ' ', 'n', 'o', 't', ' ', 'f', 'o', 'u', 'n', 'd', '.']

/-- Text of the f-string `f"Error reading file '{self.mapping_file}': {e}"`
printed to `stderr` by the `OSError` handler. -/
def osErrorMsg (path emsg : List Char) : List Char :=
  ['E', 'r', 'r', 'o', 'r', ' ', 'r', 'e', 'a', 'd', 'i', 'n', 'g', ' ',
    'f', 'i', 'l', 'e', ' ', '\''] ++ path ++ ['\'', ':', ' '] ++ emsg

/-- Observable behaviour of one program run: exit status, lines written to
standard output and standard error, and how many input lines were read. -/
structure RunResult where
  exitCode : Nat
  stdoutLines : List (List Char)
  stderrLines : List (List Char)
  stdinConsumed : Nat
  deriving DecidableEq

/-- The driver `main`: construct the remapper (which loads the mapping
file in `__init__` and on `FileNotFoundError` or `OSError` prints a
diagnostic to `stderr` and calls `sys.exit(1)`), then stream standard
input through `process_genomic_data`.  The load completes before any
input line is read, so a failing load consumes no input and produces no
output. -/
def runProgram (path : List Char) (fo : FileOutcome)
    (stdin : List (List Char)) : RunResult :=
  match fo with
  | .ok lines =>
    { exitCode := 0
      stdoutLines := process_genomic_data (load_chromosome_mappings lines) stdin
      stderrLines := []
      stdinConsumed := stdin.length }
  | .notFound =>
    { exitCode := 1
      stdoutLines := []
      stderrLines := [notFoundMsg path]
      stdinConsumed := 0 }
  | .osError e =>
    { exitCode := 1
      stdoutLines := []
      stderrLines := [osErrorMsg path e]
      stdinConsumed := 0 }

/-- The text a pending scan state still owes to the output: the buffered
characters of an incomplete candidate match. -/
def stPending : ScanSt → List Char
  | .normal _ => []
  | .s1 => ['S']
  | .s2 => ['S', 'N']
  | .s3 => ['S', 'N', ':']
  | .inName acc => 'S' :: 'N' :: ':' :: acc

/-- A list of characters free of Python whitespace. -/
def noSpace (l : List Char) : Prop := ∀ c ∈ l, isPySpace c = false

instance (l : List Char) : Decidable (noSpace l) :=
  decidable_of_iff (∀ c ∈ l, isPySpace c = false) Iff.rfl

/-- A string that can be the captured group of `\bSN:(\S+)`: nonempty and
whitespace-free. -/
def goodTag (n : List Char) : Prop := n ≠ [] ∧ noSpace n

/-- Well-formedness of a scan state: a partial captured group is nonempty
and whitespace-free (true of every state the scan reaches). -/
def stWF : ScanSt → Prop
  | .inName acc => goodTag acc
  | _ => True

/-- The state of a scan over the substituted output at the moment the scan
over the input is in state `st`: buffered candidate text has not been
emitted yet, so the output scan stands just before it, with a non-word
character (or the string start) behind it. -/
def rescanSt : ScanSt → ScanSt
  | .normal pw => .normal pw
  | _ => .normal false

/-- Apply a function to the captured group of every match of a
decomposition, leaving unmatched characters alone. -/
def mapTagNames (g : List Char → List Char) : List SNSeg → List SNSeg :=
  List.map (fun s =>
    match s with
    | .lit c => .lit c
    | .tag n => .tag (g n))

/-- Example table mapping `a` to `x` and `b` to `y`. -/
def exDictXY : Dict := [([ 'a' ], [ 'x' ]), ([ 'b' ], [ 'y' ])]

/-- Example `@SQ` line carrying two substrings that match `\bSN:(\S+)`:
`"@SQ\tSN:a\tM5:q\tSN:b"`. -/
def exLineTwoTags : List Char :=
  ['@', 'S', 'Q', '\t', 'S', 'N', ':', 'a', '\t', 'M', '5', ':', 'q', '\t', 'S', 'N', ':', 'b']

/-- The previous line with both SN-looking substrings remapped:
`"@SQ\tSN:x\tM5:q\tSN:y"`. -/
def exLineBothSubbed : List Char :=
  ['@', 'S', 'Q', '\t', 'S', 'N', ':', 'x', '\t', 'M', '5', ':', 'q', '\t', 'S', 'N', ':', 'y']

/-- The previous line with only the first SN tag remapped:
`"@SQ\tSN:x\tM5:q\tSN:b"`. -/
def exLineFirstSubbed : List Char :=
  ['@', 'S', 'Q', '\t', 'S', 'N', ':', 'x', '\t', 'M', '5', ':', 'q', '\t', 'S', 'N', ':', 'b']

/-- Chained table mapping `a` to `b` and `b` to `c`. -/
def chainDict : Dict := [([ 'a' ], [ 'b' ]), ([ 'b' ], [ 'c' ])]

/-- The line `"@SQ\tSN:a\tLN:1"`. -/
def chainLine : List Char :=
  ['@', 'S', 'Q', '\t', 'S', 'N', ':', 'a', '\t', 'L', 'N', ':', '1']

/-- The line `"@SQ\tSN:b\tLN:1"`. -/
def chainOutB : List Char :=
  ['@', 'S', 'Q', '\t', 'S', 'N', ':', 'b', '\t', 'L', 'N', ':', '1']

/-- The line `"@SQ\tSN:c\tLN:1"`. -/
def chainOutC : List Char :=
  ['@', 'S', 'Q', '\t', 'S', 'N', ':', 'c', '\t', 'L', 'N', ':', '1']

/-- Mapping-file line `"a \t b"`: both fields carry whitespace adjacent to
the interior tab. -/
def spacedMapLine : List Char := ['a', ' ', '\t', ' ', 'b']

/-- Table with the single entry `x` to `a`. -/
def exDictXA : Dict := [([ 'x' ], [ 'a' ])]

/-- The line `"@SQ\tSN:a"`. -/
def sqLineA : List Char := ['@', 'S', 'Q', '\t', 'S', 'N', ':', 'a']

/-- The line `"@SQ\tSN:x"`. -/
def sqLineX : List Char := ['@', 'S', 'Q', '\t', 'S', 'N', ':', 'x']

/-- Mapping-file line `"chr1\tNC1"`. -/
def mapLineChr1 : List Char := ['c', 'h', 'r', '1', '\t', 'N', 'C', '1']

/-- Mapping-file line `"x\ty"`. -/
def xyMapLine : List Char := ['x', '\t', 'y']

/-- Mapping-file line `"x\tz"`. -/
def xzMapLine : List Char := ['x', '\t', 'z']

theorem segRun_nil (st : ScanSt) : segRun st [] = segFlush st := rfl

theorem segRun_cons (st : ScanSt) (c : Char) (cs : List Char) :
    segRun st (c :: cs) = (segStep st c).1 ++ segRun (segStep st c).2 cs := rfl

theorem concatMap_append (f : α → List β) (l1 l2 : List α) :
    concatMap f (l1 ++ l2) = concatMap f l1 ++ concatMap f l2 := by
  induction l1 with
  | nil => rfl
  | cons x xs ih => simp [concatMap, ih]

/-- Reassembling the segments of a scan reproduces the scanned text,
prefixed by whatever the starting state had buffered. -/
theorem flatten_segRun (cs : List Char) : ∀ st : ScanSt,
    concatMap flattenSeg (segRun st cs) = stPending st ++ cs := by
  induction cs with
  | nil =>
    intro st
    cases st <;> simp [segRun, segFlush, concatMap, flattenSeg, stPending]
  | cons c cs ih =>
    intro st
    rw [segRun_cons, concatMap_append]
    cases st with
    | normal pw =>
      by_cases h : c = 'S' ∧ pw = false
      · simp [segStep, h, ih, stPending, concatMap, h.1]
      · simp [segStep, h, ih, stPending, concatMap, flattenSeg]
    | s1 =>
      by_cases h : c = 'N'
      · simp [segStep, h, ih, stPending, concatMap]
      · simp [segStep, h, ih, stPending, concatMap, flattenSeg]
    | s2 =>
      by_cases h : c = ':'
      · simp [segStep, h, ih, stPending, concatMap]
      · simp [segStep, h, ih, stPending, concatMap, flattenSeg]
    | s3 =>
      by_cases h : isPySpace c
      · simp [segStep, h, ih, stPending, concatMap, flattenSeg]
      · simp [segStep, h, ih, stPending, concatMap, flattenSeg]
    | inName acc =>
      by_cases h : isPySpace c
      · simp [segStep, h, ih, stPending, concatMap, flattenSeg]
      · simp [segStep, h, ih, stPending, concatMap, flattenSeg]

/-- Decomposing a whole line and flattening gives back the line. -/
theorem flatten_SN_TAG_PATTERN (line : List Char) :
    concatMap flattenSeg (SN_TAG_PATTERN line) = line := by
  simpa [SN_TAG_PATTERN, stPending] using flatten_segRun line (.normal false)

/-- When the lookup of every captured group falls back to the group itself,
rendering the substitution reproduces the original text of each segment. -/
theorem render_eq_flatten (d : Dict) (segs : List SNSeg)
    (h : ∀ n ∈ tagNames segs, dictGet d n n = n) :
    concatMap (renderSeg d) segs = concatMap flattenSeg segs := by
  induction segs with
  | nil => rfl
  | cons s ss ih =>
    cases s with
    | lit c =>
      have hss : ∀ n ∈ tagNames ss, dictGet d n n = n := by
        intro n hn; exact h n (by simpa [tagNames] using hn)
      simp [concatMap, renderSeg, flattenSeg, ih hss]
    | tag n =>
      have hn : dictGet d n n = n := h n (by simp [tagNames])
      have hss : ∀ m ∈ tagNames ss, dictGet d m m = m := by
        intro m hm; exact h m (by simp [tagNames, hm])
      simp [concatMap, renderSeg, flattenSeg, replace_sn, hn, ih hss]

/-- Lookup with the key as the default is the identity on every key of a
table all of whose bindings are identities. -/
theorem dictGet_id (d : Dict) (hid : ∀ p ∈ d, p.2 = p.1) (k : List Char) :
    dictGet d k k = k := by
  induction d with
  | nil => rfl
  | cons p t ih =>
    have hp : p.2 = p.1 := hid p (by simp)
    have ht : ∀ q ∈ t, q.2 = q.1 := fun q hq => hid q (by simp [hq])
    by_cases h : p.1 = k
    · simp [dictGet, lookupKey, h, hp, h ▸ hp]
    · simpa [dictGet, lookupKey, h] using ih ht

/-- C1, counterexample: the claim says `transform` performs at most one
substitution per `@SQ` line, touching only the first SN tag.  On the line
`"@SQ\tSN:a\tM5:q\tSN:b"` with the table `{a: x, b: y}` the code replaces
both SN-looking substrings (Python `re.sub` without a `count` argument
substitutes every non-overlapping match), so the output differs from the
only-first-substituted line. -/
theorem C1_first_tag_only_cex :
    remap_chromosome_in_line exDictXY exLineTwoTags = exLineBothSubbed ∧
      exLineBothSubbed ≠ exLineFirstSubbed := by
  decide

/-- C1, amended: for every `@SQ` line, `transform` substitutes every match
of `\bSN:(\S+)` (not only the first), replacing each matched tag by
`replace_sn` of its captured group, and every character outside the
matched tags is preserved byte for byte: the output renders the
decomposition of the input line, and that decomposition flattens back to
exactly the input line. -/
theorem C1_all_tags_substituted (d : Dict) (line : List Char)
    (hsq : startsWithSQ line = true) :
    remap_chromosome_in_line d line = concatMap (renderSeg d) (SN_TAG_PATTERN line) ∧
      concatMap flattenSeg (SN_TAG_PATTERN line) = line := by
  refine ⟨?_, flatten_SN_TAG_PATTERN line⟩
  simp [remap_chromosome_in_line, hsq, subSN]

theorem C1_all_tags_substituted_w :
    startsWithSQ exLineTwoTags = true ∧
      (remap_chromosome_in_line exDictXY exLineTwoTags =
          concatMap (renderSeg exDictXY) (SN_TAG_PATTERN exLineTwoTags) ∧
        concatMap flattenSeg (SN_TAG_PATTERN exLineTwoTags) = exLineTwoTags) :=
  ⟨by decide, C1_all_tags_substituted exDictXY exLineTwoTags (by decide)⟩

/-- C2, counterexample: the claim says the loader trims surrounding
whitespace from each field, storing trimmed key and trimmed value.  On the
mapping line `"a \t b"` the code stores the untrimmed key `"a "` with the
untrimmed value `" b"` and stores nothing under the trimmed key `"a"`:
`line.strip()` strips only the ends of the whole line, and the split
fields are used verbatim. -/
theorem C2_trimmed_fields_cex :
    lookupKey (load_chromosome_mappings [spacedMapLine]) ['a'] = none ∧
      lookupKey (load_chromosome_mappings [spacedMapLine]) ['a', ' '] = some [' ', 'b'] := by
  decide

/-- C3: an `@SQ` line none of whose SN names is a key of the table is
returned unchanged, byte-identical to the input — the callback replaces
each match by `SN:` plus the result of a lookup that falls back to the
original name.  (A well-formed `@SQ` line has exactly one SN tag; the
hypothesis covers all captured groups of the pattern on the line.) -/
theorem C3_unmapped_sq_line_unchanged (d : Dict) (line : List Char)
    (hsq : startsWithSQ line = true)
    (h : ∀ n ∈ snNames line, lookupKey d n = none) :
    remap_chromosome_in_line d line = line := by
  have hren : ∀ n ∈ tagNames (SN_TAG_PATTERN line), dictGet d n n = n := by
    intro n hn
    simp [dictGet, h n hn]
  calc remap_chromosome_in_line d line
      = concatMap (renderSeg d) (SN_TAG_PATTERN line) := by
        simp [remap_chromosome_in_line, hsq, subSN]
    _ = concatMap flattenSeg (SN_TAG_PATTERN line) := render_eq_flatten d _ hren
    _ = line := flatten_SN_TAG_PATTERN line

theorem C3_unmapped_sq_line_unchanged_w :
    startsWithSQ chainLine = true ∧
      (∀ n ∈ snNames chainLine, lookupKey exDictXA n = none) ∧
      remap_chromosome_in_line exDictXA chainLine = chainLine :=
  ⟨by decide, by decide,
    C3_unmapped_sq_line_unchanged exDictXA chainLine (by decide) (by decide)⟩

/-- C5: a line that does not begin with the literal prefix `@SQ` is
returned unchanged for every table — the transformer only substitutes
inside lines passing the `startswith("@SQ")` test. -/
theorem C5_non_sq_line_unchanged (d : Dict) (line : List Char)
    (h : startsWithSQ line = false) :
    remap_chromosome_in_line d line = line := by
  simp [remap_chromosome_in_line, h]

theorem C5_non_sq_line_unchanged_w :
    startsWithSQ ['@', 'H', 'D', '\t', 'V', 'N', ':', '1'] = false ∧
      remap_chromosome_in_line exDictXY ['@', 'H', 'D', '\t', 'V', 'N', ':', '1'] =
        ['@', 'H', 'D', '\t', 'V', 'N', ':', '1'] :=
  ⟨by decide, C5_non_sq_line_unchanged exDictXY _ (by decide)⟩

/-- C6: the transformer is a total, deterministic, pure function of its
two inputs.  In this embedding it is a total computable function, so
totality and freedom from side effects hold by construction; the theorem
records that every input (the empty line included) has exactly one
result, and that the empty line is returned unchanged. -/
theorem C6_transform_total :
    (∀ (d : Dict) (line : List Char), ∃! r : List Char, remap_chromosome_in_line d line = r) ∧
      (∀ d : Dict, remap_chromosome_in_line d [] = []) :=
  ⟨fun d line => ⟨remap_chromosome_in_line d line, rfl, fun _ h => h.symm⟩, fun _ => rfl⟩

/-- C7: a table mapping every key to itself leaves every line unchanged —
each substituted tag reads `SN:` plus the looked-up name, which equals the
original name. -/
theorem C7_identity_table_fixes_lines (d : Dict)
    (hid : ∀ p ∈ d, p.2 = p.1) (line : List Char) :
    remap_chromosome_in_line d line = line := by
  by_cases hsq : startsWithSQ line = true
  · calc remap_chromosome_in_line d line
        = concatMap (renderSeg d) (SN_TAG_PATTERN line) := by
          simp [remap_chromosome_in_line, hsq, subSN]
      _ = concatMap flattenSeg (SN_TAG_PATTERN line) :=
          render_eq_flatten d _ (fun n _ => dictGet_id d hid n)
      _ = line := flatten_SN_TAG_PATTERN line
  · simp [remap_chromosome_in_line, hsq]

theorem C7_identity_table_fixes_lines_w :
    (∀ p ∈ [([ 'c', 'h', 'r', '1' ], [ 'c', 'h', 'r', '1' ])], p.2 = p.1) ∧
      remap_chromosome_in_line [([ 'c', 'h', 'r', '1' ], [ 'c', 'h', 'r', '1' ])]
          ['@', 'S', 'Q', '\t', 'S', 'N', ':', 'c', 'h', 'r', '1'] =
        ['@', 'S', 'Q', '\t', 'S', 'N', ':', 'c', 'h', 'r', '1'] :=
  ⟨by decide, C7_identity_table_fixes_lines _ (by decide) _⟩

/-- C8, counterexample: the claim says that for every injective table with
a well-defined inverse, transforming with the table and then with its
inverse restores the original SN value of every line.  The singleton table
`{x: a}` is injective and `invert` gives its well-defined inverse
`{a: x}`, yet on `"@SQ\tSN:a"` the first pass leaves the line unchanged
(`a` is not a key) and the second pass rewrites it to `"@SQ\tSN:x"`, so
the SN value `a` is not restored. -/
theorem C8_round_trip_cex :
    (exDictXA.map (fun p => p.1)).Nodup ∧
      (exDictXA.map (fun p => p.2)).Nodup ∧
      remap_chromosome_in_line (invert exDictXA)
          (remap_chromosome_in_line exDictXA sqLineA) = sqLineX ∧
      sqLineX ≠ sqLineA := by
  decide

/-- C10: a single transformation never chains lookups through the table:
the decomposition into matches is computed from the input line alone and
each captured group is looked up exactly once by `replace_sn`, so with the
table `{a: b, b: c}` the line `"@SQ\tSN:a\tLN:1"` becomes
`"@SQ\tSN:b\tLN:1"` and not `"@SQ\tSN:c\tLN:1"` — the substituted output
is not rescanned within the call. -/
theorem C10_no_chained_lookup :
    (∀ (d : Dict) (line : List Char),
        subSN d line = concatMap (renderSeg d) (SN_TAG_PATTERN line)) ∧
      remap_chromosome_in_line chainDict chainLine = chainOutB ∧
      remap_chromosome_in_line chainDict chainLine ≠ chainOutC :=
  ⟨fun _ _ => rfl, by decide, by decide⟩

theorem lookupKey_cons (p : List Char × List Char) (t : Dict) (k : List Char) :
    lookupKey (p :: t) k = if p.1 = k then some p.2 else lookupKey t k := by
  obtain ⟨a, b⟩ := p
  rfl

theorem containsKey_cons (p : List Char × List Char) (t : Dict) (k : List Char) :
    containsKey (p :: t) k = if p.1 = k then true else containsKey t k := by
  obtain ⟨a, b⟩ := p
  rfl

theorem lookupKey_map_subst_ne (m : Dict) (k v k2 : List Char) (h : k2 ≠ k) :
    lookupKey (m.map (fun p => if p.1 = k then (k, v) else p)) k2 = lookupKey m k2 := by
  induction m with
  | nil => rfl
  | cons p t ih =>
    rw [List.map_cons, lookupKey_cons, lookupKey_cons]
    by_cases hp : p.1 = k
    · rw [if_pos hp]
      have hk : ¬((k, v).1 = k2) := fun hkk => h hkk.symm
      rw [if_neg hk, if_neg (fun hp2 : p.1 = k2 => h (hp ▸ hp2).symm), ih]
    · rw [if_neg hp]
      by_cases hp2 : p.1 = k2
      · rw [if_pos hp2, if_pos hp2]
      · rw [if_neg hp2, if_neg hp2, ih]

theorem lookupKey_map_subst_eq (m : Dict) (k v : List Char)
    (h : containsKey m k = true) :
    lookupKey (m.map (fun p => if p.1 = k then (k, v) else p)) k = some v := by
  induction m with
  | nil => simp [containsKey] at h
  | cons p t ih =>
    rw [List.map_cons, lookupKey_cons]
    by_cases hp : p.1 = k
    · rw [if_pos hp]
      simp
    · rw [containsKey_cons, if_neg hp] at h
      rw [if_neg hp, ih h, if_neg hp]

theorem lookupKey_append (m1 m2 : Dict) (k : List Char) :
    lookupKey (m1 ++ m2) k =
      match lookupKey m1 k with
      | some v => some v
      | none => lookupKey m2 k := by
  induction m1 with
  | nil => rfl
  | cons p t ih =>
    rw [List.cons_append, lookupKey_cons, lookupKey_cons]
    by_cases hp : p.1 = k
    · rw [if_pos hp, if_pos hp]
    · rw [if_neg hp, if_neg hp, ih]

theorem containsKey_false_lookup (m : Dict) (k : List Char)
    (h : containsKey m k = false) : lookupKey m k = none := by
  induction m with
  | nil => rfl
  | cons p t ih =>
    rw [containsKey_cons] at h
    rw [lookupKey_cons]
    by_cases hp : p.1 = k
    · rw [if_pos hp] at h
      exact absurd h (by simp)
    · rw [if_neg hp] at h
      rw [if_neg hp, ih h]

theorem containsKey_false_keys (m : Dict) (k : List Char)
    (h : containsKey m k = false) : ∀ p ∈ m, p.1 ≠ k := by
  induction m with
  | nil => intro p hp; simp at hp
  | cons q t ih =>
    rw [containsKey_cons] at h
    by_cases hq : q.1 = k
    · rw [if_pos hq] at h
      exact absurd h (by simp)
    · rw [if_neg hq] at h
      intro p hp
      rcases List.mem_cons.mp hp with rfl | hp'
      · exact hq
      · exact ih h p hp'

/-- Lookup after a `dict` assignment: the assigned key reads the new
value, every other key is untouched. -/
theorem lookup_dictInsert (m : Dict) (k v k2 : List Char) :
    lookupKey (dictInsert m k v) k2 = if k2 = k then some v else lookupKey m k2 := by
  unfold dictInsert
  by_cases hc : containsKey m k
  · by_cases h2 : k2 = k
    · subst h2
      simp [hc, lookupKey_map_subst_eq m k2 v hc]
    · simp [hc, h2, lookupKey_map_subst_ne m k v k2 h2]
  · simp only [hc, Bool.false_eq_true, if_false, lookupKey_append]
    by_cases h2 : k2 = k
    · subst h2
      simp [containsKey_false_lookup m k2 (by simpa using hc), lookupKey]
    · cases hk : lookupKey m k2 with
      | none =>
        have hk2 : ¬(k = k2) := fun hkk => h2 hkk.symm
        simp [h2, hk, lookupKey, hk2]
      | some w => simp [h2, hk]

theorem dictInsert_pairwiseKeys (m : Dict) (k v : List Char)
    (h : List.Pairwise (fun p q : List Char × List Char => p.1 ≠ q.1) m) :
    List.Pairwise (fun p q : List Char × List Char => p.1 ≠ q.1) (dictInsert m k v) := by
  unfold dictInsert
  by_cases hc : containsKey m k
  · simp only [hc, if_true]
    rw [List.pairwise_map]
    refine h.imp ?_
    intro a b hab
    show (if a.1 = k then (k, v) else a).1 ≠ (if b.1 = k then (k, v) else b).1
    by_cases ha : a.1 = k <;> by_cases hb : b.1 = k
    · exact absurd (ha.trans hb.symm) hab
    · rw [if_pos ha, if_neg hb]
      exact fun hkb : k = b.1 => hb hkb.symm
    · rw [if_neg ha, if_pos hb]
      exact fun hak : a.1 = k => ha hak
    · rw [if_neg ha, if_neg hb]
      exact hab
  · simp only [hc, Bool.false_eq_true, if_false]
    refine List.pairwise_append.mpr ⟨h, List.pairwise_singleton _ _, ?_⟩
    intro p hp q hq
    have : q = (k, v) := by simpa using hq
    subst this
    exact containsKey_false_keys m k (by simpa using hc) p hp

theorem dictInsert_valuesP (m : Dict) (k v : List Char) (P : List Char → Prop)
    (hm : ∀ p ∈ m, P p.2) (hv : P v) :
    ∀ p ∈ dictInsert m k v, P p.2 := by
  unfold dictInsert
  by_cases hc : containsKey m k
  · simp only [hc, if_true]
    intro p hp
    rcases List.mem_map.mp hp with ⟨q, hq, rfl⟩
    by_cases hqk : q.1 = k
    · simpa [hqk] using hv
    · simpa [hqk] using hm q hq
  · simp only [hc, Bool.false_eq_true, if_false]
    intro p hp
    rcases List.mem_append.mp hp with hp' | hp'
    · exact hm p hp'
    · have : p = (k, v) := by simpa using hp'
      subst this
      exact hv

theorem parseLine_val_ne_nil (s : List Char) (kv : List Char × List Char)
    (h : parseLine s = some kv) : kv.2 ≠ [] := by
  have hnil : ∀ x : List Char, pystrip x ≠ [] → x ≠ [] := by
    intro x hx hx0
    rw [hx0] at hx
    exact hx rfl
  unfold parseLine at h
  rcases hsp : splitTab (pystrip s) with _ | ⟨p0, rest⟩ <;> rw [hsp] at h
  · simp at h
  · by_cases h0 : pystrip p0 = []
    · simp [h0] at h
    · rcases rest with _ | ⟨p1, rest2⟩
      · simp [h0] at h
        rw [← h]
        exact hnil p0 h0
      · by_cases h1 : pystrip p1 = []
        · simp [h0, h1] at h
          rw [← h]
          exact hnil p0 h0
        · simp [h0, h1] at h
          rw [← h]
          exact hnil p1 h1

theorem lastBinding_shift (k : List Char) (lines : List (List Char)) :
    ∀ acc : Option (List Char),
      lines.foldl (lastBindingStep k) acc =
        match lines.foldl (lastBindingStep k) none with
        | some v => some v
        | none => acc := by
  induction lines with
  | nil => intro acc; simp
  | cons s ls ih =>
    intro acc
    have hl : List.foldl (lastBindingStep k) acc (s :: ls) =
        List.foldl (lastBindingStep k) (lastBindingStep k acc s) ls := rfl
    have hr : List.foldl (lastBindingStep k) none (s :: ls) =
        List.foldl (lastBindingStep k) (lastBindingStep k none s) ls := rfl
    rw [hl, hr, ih (lastBindingStep k acc s), ih (lastBindingStep k none s)]
    cases hf : List.foldl (lastBindingStep k) none ls with
    | some v => simp
    | none =>
      simp only []
      unfold lastBindingStep
      cases hp : parseLine s with
      | none => simp
      | some kv =>
        by_cases hk : kv.1 = k
        · simp [hk]
        · simp [hk]

/-- Lookup in the loaded table is the binding contributed by the last line
of the file that binds the key: later duplicate keys overwrite earlier
ones. -/
theorem load_lookup (lines : List (List Char)) (k : List Char) :
    lookupKey (load_chromosome_mappings lines) k = lastBinding lines k := by
  have main : ∀ m : Dict,
      lookupKey (lines.foldl loadStep m) k =
        match lastBinding lines k with
        | some v => some v
        | none => lookupKey m k := by
    induction lines with
    | nil => intro m; simp [lastBinding]
    | cons s ls ih =>
      intro m
      have hl : List.foldl loadStep m (s :: ls) = List.foldl loadStep (loadStep m s) ls := rfl
      have hb : lastBinding (s :: ls) k =
          List.foldl (lastBindingStep k) (lastBindingStep k none s) ls := rfl
      rw [hl, ih (loadStep m s), hb, lastBinding_shift k ls (lastBindingStep k none s)]
      have hfold : List.foldl (lastBindingStep k) none ls = lastBinding ls k := rfl
      rw [hfold]
      cases hf : lastBinding ls k with
      | some v => simp
      | none =>
        simp only []
        unfold loadStep lastBindingStep
        cases hp : parseLine s with
        | none => simp
        | some kv =>
          rw [lookup_dictInsert]
          by_cases hk : kv.1 = k
          · rw [if_pos hk.symm]
            show some kv.2 =
              (match (if kv.1 = k then some kv.2 else none : Option (List Char)) with
                | some v => some v
                | none => lookupKey m k)
            rw [if_pos hk]
          · have hk2 : ¬k = kv.1 := fun hkk => hk hkk.symm
            rw [if_neg hk2]
            show lookupKey m k =
              (match (if kv.1 = k then some kv.2 else none : Option (List Char)) with
                | some v => some v
                | none => lookupKey m k)
            rw [if_neg hk]
  have h0 := main []
  cases hf : lastBinding lines k with
  | some v => rw [hf] at h0; exact h0
  | none =>
    rw [hf] at h0
    simpa [load_chromosome_mappings, lookupKey] using h0

/-- The loaded table has pairwise distinct keys. -/
theorem load_pairwiseKeys (lines : List (List Char)) :
    List.Pairwise (fun p q : List Char × List Char => p.1 ≠ q.1)
      (load_chromosome_mappings lines) := by
  have main : ∀ m : Dict,
      List.Pairwise (fun p q : List Char × List Char => p.1 ≠ q.1) m →
      List.Pairwise (fun p q : List Char × List Char => p.1 ≠ q.1)
        (lines.foldl loadStep m) := by
    induction lines with
    | nil => intro m hm; exact hm
    | cons s ls ih =>
      intro m hm
      refine ih (loadStep m s) ?_
      unfold loadStep
      cases parseLine s with
      | none => exact hm
      | some kv => exact dictInsert_pairwiseKeys m kv.1 kv.2 hm
  exact main [] List.Pairwise.nil

/-- Every value in the loaded table is a nonempty string. -/
theorem load_values_ne_nil (lines : List (List Char)) :
    ∀ p ∈ load_chromosome_mappings lines, p.2 ≠ [] := by
  have main : ∀ m : Dict, (∀ p ∈ m, p.2 ≠ []) →
      ∀ p ∈ lines.foldl loadStep m, p.2 ≠ [] := by
    induction lines with
    | nil => intro m hm; exact hm
    | cons s ls ih =>
      intro m hm
      refine ih (loadStep m s) ?_
      unfold loadStep
      cases hp : parseLine s with
      | none => exact hm
      | some kv =>
        exact dictInsert_valuesP m kv.1 kv.2 (fun v => v ≠ []) hm
          (parseLine_val_ne_nil s kv hp)
  exact main [] (by intro p hp; simp at hp)

/-- C4: behaviour of the loader.  Per line (fields being the tab-split of
the whitespace-stripped line, emptiness tested after trimming, as the code
does): a non-whitespace first field with a present, non-whitespace second
field stores first-to-second; a missing or whitespace-only second field
stores first-to-first; a whitespace-only first field (blank lines
included) stores nothing, and such a line leaves the table unchanged.
Over the file: lookup returns the binding of the last line binding the
key, keys are pairwise distinct, and every value is nonempty. -/
theorem C4_loader_table :
    (∀ (s p0 : List Char) (rest : List (List Char)),
        splitTab (pystrip s) = p0 :: rest →
        ((pystrip p0 = [] → parseLine s = none) ∧
          (pystrip p0 ≠ [] →
            ((rest = [] → parseLine s = some (p0, p0)) ∧
              (∀ (p1 : List Char) (rest2 : List (List Char)), rest = p1 :: rest2 →
                ((pystrip p1 = [] → parseLine s = some (p0, p0)) ∧
                  (pystrip p1 ≠ [] → parseLine s = some (p0, p1)))))))) ∧
      (∀ (lines : List (List Char)) (s : List Char),
          parseLine s = none →
          load_chromosome_mappings (lines ++ [s]) = load_chromosome_mappings lines) ∧
      (∀ (lines : List (List Char)) (k : List Char),
          lookupKey (load_chromosome_mappings lines) k = lastBinding lines k) ∧
      (∀ lines : List (List Char),
          List.Pairwise (fun p q : List Char × List Char => p.1 ≠ q.1)
            (load_chromosome_mappings lines)) ∧
      (∀ (lines : List (List Char)) (p : List Char × List Char),
          p ∈ load_chromosome_mappings lines → p.2 ≠ []) := by
  refine ⟨?_, ?_, load_lookup, load_pairwiseKeys, ?_⟩
  · intro s p0 rest hsp
    refine ⟨fun h0 => by simp [parseLine, hsp, h0], fun h0 => ⟨?_, ?_⟩⟩
    · intro hr
      subst hr
      simp [parseLine, hsp, h0]
    · intro p1 rest2 hr
      subst hr
      exact ⟨fun h1 => by simp [parseLine, hsp, h0, h1],
        fun h1 => by simp [parseLine, hsp, h0, h1]⟩
  · intro lines s hs
    simp [load_chromosome_mappings, List.foldl_append, loadStep, hs]
  · intro lines p hp
    exact load_values_ne_nil lines p hp

theorem C4_loader_table_w :
    parseLine mapLineChr1 = some (['c', 'h', 'r', '1'], ['N', 'C', '1']) ∧
      parseLine ['c', 'h', 'r', 'M'] = some (['c', 'h', 'r', 'M'], ['c', 'h', 'r', 'M']) ∧
      parseLine [] = none ∧
      load_chromosome_mappings [([] : List Char)] = load_chromosome_mappings [] ∧
      lookupKey (load_chromosome_mappings [xyMapLine, xzMapLine]) ['x'] = some ['z'] := by
  refine ⟨?_, ?_, ?_, ?_, ?_⟩
  · exact (((C4_loader_table.1 mapLineChr1 ['c', 'h', 'r', '1'] [['N', 'C', '1']]
      (by decide)).2 (by decide)).2 ['N', 'C', '1'] [] rfl).2 (by decide)
  · exact ((C4_loader_table.1 ['c', 'h', 'r', 'M'] ['c', 'h', 'r', 'M'] []
      (by decide)).2 (by decide)).1 rfl
  · exact (C4_loader_table.1 [] [] [] (by decide)).1 (by decide)
  · exact C4_loader_table.2.1 [] [] (by decide)
  · exact (C4_loader_table.2.2.1 [xyMapLine, xzMapLine] ['x']).trans (by decide)

theorem concatMap_cons (f : α → List β) (x : α) (xs : List α) :
    concatMap f (x :: xs) = f x ++ concatMap f xs := rfl

theorem mapTagNames_nil (g : List Char → List Char) : mapTagNames g [] = [] := rfl

theorem mapTagNames_cons (g : List Char → List Char) (s : SNSeg) (ss : List SNSeg) :
    mapTagNames g (s :: ss) =
      (match s with
        | .lit c => SNSeg.lit c
        | .tag n => SNSeg.tag (g n)) :: mapTagNames g ss := rfl

theorem mapTagNames_append (g : List Char → List Char) (a b : List SNSeg) :
    mapTagNames g (a ++ b) = mapTagNames g a ++ mapTagNames g b :=
  List.map_append _ a b

/-- Inside the greedy group, a whitespace-free run of characters is
accumulated wholesale. -/
theorem inName_consume (v : List Char) : ∀ (acc rest : List Char), noSpace v →
    segRun (.inName acc) (v ++ rest) = segRun (.inName (acc ++ v)) rest := by
  induction v with
  | nil => intro acc rest _; simp
  | cons x v ih =>
    intro acc rest hv
    have hx : isPySpace x = false := hv x (by simp)
    have hv2 : noSpace v := fun c hc => hv c (by simp [hc])
    have hstep : segStep (.inName acc) x = ([], .inName (acc ++ [x])) := by
      simp [segStep, hx]
    rw [List.cons_append, segRun_cons, hstep]
    simp only [List.nil_append]
    rw [ih (acc ++ [x]) rest hv2]
    simp

/-- Scanning from a fresh position, the text `SN:` followed by a nonempty
whitespace-free run enters the group state having captured the run. -/
theorem tagChunk_scan (v rest : List Char) (hne : v ≠ []) (hsp : noSpace v) :
    segRun (.normal false) ('S' :: 'N' :: ':' :: (v ++ rest)) =
      segRun (.inName v) rest := by
  rcases v with _ | ⟨x, v⟩
  · exact absurd rfl hne
  · have hx : isPySpace x = false := hsp x (by simp)
    have hv2 : noSpace v := fun c hc => hsp c (by simp [hc])
    have h1 : segStep (.normal false) 'S' = ([], .s1) := by decide
    have h2 : segStep .s1 'N' = ([], .s2) := by decide
    have h3 : segStep .s2 ':' = ([], .s3) := by decide
    have h4 : segStep .s3 x = ([], .inName [x]) := by simp [segStep, hx]
    rw [segRun_cons, h1]
    simp only [List.nil_append]
    rw [segRun_cons, h2]
    simp only [List.nil_append]
    rw [segRun_cons, h3]
    simp only [List.nil_append]
    rw [List.cons_append, segRun_cons, h4]
    simp only [List.nil_append]
    rw [inName_consume v [x] rest hv2]
    simp
theorem lookupKey_mem (d : Dict) (k v : List Char) (h : lookupKey d k = some v) :
    (k, v) ∈ d := by
  induction d with
  | nil => simp [lookupKey] at h
  | cons p t ih =>
    rw [lookupKey_cons] at h
    by_cases hp : p.1 = k
    · rw [if_pos hp] at h
      have hv : v = p.2 := by
        have h2 := h
        simp at h2
        exact h2.symm
      have hkv : (k, v) = p := by
        rw [hv, ← hp]
      rw [hkv]
      exact List.mem_cons_self p t
    · rw [if_neg hp] at h
      exact List.mem_cons_of_mem p (ih h)

/-- A lookup falling back to a good tag name, in a table all of whose
values are good tag names, yields a good tag name. -/
theorem goodTag_dictGet (d : Dict) (hd : ∀ p ∈ d, goodTag p.2)
    (n : List Char) (hn : goodTag n) : goodTag (dictGet d n n) := by
  unfold dictGet
  cases hl : lookupKey d n with
  | none => exact hn
  | some v => exact hd (n, v) (lookupKey_mem d n v hl)

/-- Scanning the substituted output of a scan yields the segments of the
input with every captured group replaced by its looked-up value: the
output of `re.sub` decomposes exactly like the input, tag for tag.  Needs
every value of the table to be a usable tag name (nonempty, no
whitespace). -/
theorem rescan_segRun (d : Dict) (hd : ∀ p ∈ d, goodTag p.2) (cs : List Char) :
    ∀ st : ScanSt, stWF st →
      segRun (rescanSt st) (concatMap (renderSeg d) (segRun st cs)) =
        mapTagNames (fun n => dictGet d n n) (segRun st cs) := by
  induction cs with
  | nil =>
    intro st hwf
    cases st with
    | normal pw => rfl
    | s1 => rfl
    | s2 => rfl
    | s3 => rfl
    | inName acc =>
      have hg : goodTag (dictGet d acc acc) := goodTag_dictGet d hd acc hwf
      show segRun (.normal false) (concatMap (renderSeg d) [.tag acc]) =
        mapTagNames (fun n => dictGet d n n) [.tag acc]
      rw [show concatMap (renderSeg d) [SNSeg.tag acc] =
            'S' :: 'N' :: ':' :: (dictGet d acc acc ++ []) by
          simp [concatMap, renderSeg, replace_sn]]
      rw [tagChunk_scan _ _ hg.1 hg.2]
      rfl
  | cons c cs ih =>
    intro st hwf
    cases st with
    | normal pw =>
      by_cases h : c = 'S' ∧ pw = false
      · obtain ⟨hc, hpw⟩ := h
        subst hc
        subst hpw
        have hstep : segStep (.normal false) 'S' = ([], .s1) := by decide
        rw [segRun_cons, hstep]
        simp only [List.nil_append, rescanSt]
        have ihx := ih .s1 trivial
        simp only [rescanSt] at ihx
        exact ihx
      · have hstep : segStep (.normal pw) c = ([.lit c], .normal (isWordChar c)) := by
          simp [segStep, h]
        rw [segRun_cons, hstep]
        simp only [rescanSt, concatMap_append, mapTagNames_append]
        rw [show concatMap (renderSeg d) [SNSeg.lit c] = [c] from rfl]
        show segRun (.normal pw)
            (c :: concatMap (renderSeg d) (segRun (.normal (isWordChar c)) cs)) = _
        rw [segRun_cons, hstep]
        have ihx := ih (.normal (isWordChar c)) trivial
        simp only [rescanSt] at ihx
        rw [ihx]
        rfl
    | s1 =>
      by_cases h : c = 'N'
      · subst h
        have hstep : segStep .s1 'N' = ([], .s2) := by decide
        rw [segRun_cons, hstep]
        simp only [List.nil_append, rescanSt]
        have ihx := ih .s2 trivial
        simp only [rescanSt] at ihx
        exact ihx
      · have hstep : segStep .s1 c = ([.lit 'S', .lit c], .normal (isWordChar c)) := by
          simp [segStep, h]
        rw [segRun_cons, hstep]
        simp only [rescanSt, concatMap_append, mapTagNames_append]
        rw [show concatMap (renderSeg d) [SNSeg.lit 'S', SNSeg.lit c] = ['S', c] from rfl]
        show segRun (.normal false)
            ('S' :: c :: concatMap (renderSeg d) (segRun (.normal (isWordChar c)) cs)) = _
        have h1 : segStep (.normal false) 'S' = ([], .s1) := by decide
        rw [segRun_cons, h1]
        simp only [List.nil_append]
        rw [segRun_cons, hstep]
        have ihx := ih (.normal (isWordChar c)) trivial
        simp only [rescanSt] at ihx
        rw [ihx]
        rfl
    | s2 =>
      by_cases h : c = ':'
      · subst h
        have hstep : segStep .s2 ':' = ([], .s3) := by decide
        rw [segRun_cons, hstep]
        simp only [List.nil_append, rescanSt]
        have ihx := ih .s3 trivial
        simp only [rescanSt] at ihx
        exact ihx
      · have hstep : segStep .s2 c =
            ([.lit 'S', .lit 'N', .lit c], .normal (isWordChar c)) := by
          simp [segStep, h]
        rw [segRun_cons, hstep]
        simp only [rescanSt, concatMap_append, mapTagNames_append]
        rw [show concatMap (renderSeg d) [SNSeg.lit 'S', SNSeg.lit 'N', SNSeg.lit c] =
              ['S', 'N', c] from rfl]
        show segRun (.normal false)
            ('S' :: 'N' :: c ::
              concatMap (renderSeg d) (segRun (.normal (isWordChar c)) cs)) = _
        have h1 : segStep (.normal false) 'S' = ([], .s1) := by decide
        have h2 : segStep .s1 'N' = ([], .s2) := by decide
        rw [segRun_cons, h1]
        simp only [List.nil_append]
        rw [segRun_cons, h2]
        simp only [List.nil_append]
        rw [segRun_cons, hstep]
        have ihx := ih (.normal (isWordChar c)) trivial
        simp only [rescanSt] at ihx
        rw [ihx]
        rfl
    | s3 =>
      by_cases h : isPySpace c = true
      · have hstep : segStep .s3 c =
            ([.lit 'S', .lit 'N', .lit ':', .lit c], .normal (isWordChar c)) := by
          simp [segStep, h]
        rw [segRun_cons, hstep]
        simp only [rescanSt, concatMap_append, mapTagNames_append]
        rw [show concatMap (renderSeg d)
              [SNSeg.lit 'S', SNSeg.lit 'N', SNSeg.lit ':', SNSeg.lit c] =
              ['S', 'N', ':', c] from rfl]
        show segRun (.normal false)
            ('S' :: 'N' :: ':' :: c ::
              concatMap (renderSeg d) (segRun (.normal (isWordChar c)) cs)) = _
        have h1 : segStep (.normal false) 'S' = ([], .s1) := by decide
        have h2 : segStep .s1 'N' = ([], .s2) := by decide
        have h3 : segStep .s2 ':' = ([], .s3) := by decide
        rw [segRun_cons, h1]
        simp only [List.nil_append]
        rw [segRun_cons, h2]
        simp only [List.nil_append]
        rw [segRun_cons, h3]
        simp only [List.nil_append]
        rw [segRun_cons, hstep]
        have ihx := ih (.normal (isWordChar c)) trivial
        simp only [rescanSt] at ihx
        rw [ihx]
        rfl
      · have hx : isPySpace c = false := by simpa using h
        have hstep : segStep .s3 c = ([], .inName [c]) := by
          simp [segStep, hx]
        rw [segRun_cons, hstep]
        simp only [List.nil_append, rescanSt]
        have hwf2 : stWF (.inName [c]) := by
          refine ⟨by simp, fun x hx2 => ?_⟩
          rcases List.mem_singleton.mp hx2 with rfl
          exact hx
        have ihx := ih (.inName [c]) hwf2
        simp only [rescanSt] at ihx
        exact ihx
    | inName acc =>
      have hacc : goodTag acc := hwf
      by_cases h : isPySpace c = true
      · have hstep : segStep (.inName acc) c =
            ([.tag acc, .lit c], .normal (isWordChar c)) := by
          simp [segStep, h]
        rw [segRun_cons, hstep]
        simp only [rescanSt, concatMap_append, mapTagNames_append]
        have hg : goodTag (dictGet d acc acc) := goodTag_dictGet d hd acc hacc
        rw [show concatMap (renderSeg d) [SNSeg.tag acc, SNSeg.lit c] =
              'S' :: 'N' :: ':' :: (dictGet d acc acc ++ [c]) by
            simp [concatMap, renderSeg, replace_sn]]
        rw [show ((('S' :: 'N' :: ':' :: (dictGet d acc acc ++ [c])) ++
              concatMap (renderSeg d) (segRun (.normal (isWordChar c)) cs)) :
              List Char) =
            'S' :: 'N' :: ':' :: (dictGet d acc acc ++
              (c :: concatMap (renderSeg d) (segRun (.normal (isWordChar c)) cs))) by
          simp]
        rw [tagChunk_scan _ _ hg.1 hg.2]
        rw [segRun_cons, show segStep (.inName (dictGet d acc acc)) c =
            ([.tag (dictGet d acc acc), .lit c], .normal (isWordChar c)) by
          simp [segStep, h]]
        have ihx := ih (.normal (isWordChar c)) trivial
        simp only [rescanSt] at ihx
        rw [ihx]
        rfl
      · have hx : isPySpace c = false := by simpa using h
        have hstep : segStep (.inName acc) c = ([], .inName (acc ++ [c])) := by
          simp [segStep, hx]
        rw [segRun_cons, hstep]
        simp only [List.nil_append, rescanSt]
        have hwf2 : stWF (.inName (acc ++ [c])) := by
          refine ⟨by simp, fun x hx2 => ?_⟩
          rcases List.mem_append.mp hx2 with hx3 | hx3
          · exact hacc.2 x hx3
          · rcases List.mem_singleton.mp hx3 with rfl
            exact hx
        have ihx := ih (.inName (acc ++ [c])) hwf2
        simp only [rescanSt] at ihx
        exact ihx

theorem containsKey_lookup (m : Dict) (k : List Char)
    (h : containsKey m k = true) : ∃ v, lookupKey m k = some v := by
  induction m with
  | nil => simp [containsKey] at h
  | cons p t ih =>
    rw [containsKey_cons] at h
    rw [lookupKey_cons]
    by_cases hp : p.1 = k
    · exact ⟨p.2, by rw [if_pos hp]⟩
    · rw [if_neg hp] at h
      obtain ⟨v, hv⟩ := ih h
      exact ⟨v, by rw [if_neg hp, hv]⟩

theorem lookupKey_of_mem (m : Dict)
    (hk : List.Pairwise (fun p q : List Char × List Char => p.1 ≠ q.1) m)
    (k w : List Char) (h : (k, w) ∈ m) : lookupKey m k = some w := by
  induction m with
  | nil => simp at h
  | cons p t ih =>
    obtain ⟨hhead, htail⟩ := List.pairwise_cons.mp hk
    rw [lookupKey_cons]
    rcases List.mem_cons.mp h with heq | hmem
    · rw [← heq]
      simp
    · have hne : p.1 ≠ k := by
        have := hhead (k, w) hmem
        simpa using this
      rw [if_neg hne, ih htail hmem]

/-- In an injective table the reversed table looks up each value back to
its key. -/
theorem invert_lookup (d : Dict)
    (_hk : List.Pairwise (fun p q : List Char × List Char => p.1 ≠ q.1) d)
    (hv : List.Pairwise (fun p q : List Char × List Char => p.2 ≠ q.2) d)
    (k v : List Char) (h : lookupKey d k = some v) :
    lookupKey (invert d) v = some k := by
  have hmem : (k, v) ∈ d := lookupKey_mem d k v h
  have hmem2 : (v, k) ∈ invert d :=
    List.mem_map.mpr ⟨(k, v), hmem, rfl⟩
  have hkinv : List.Pairwise (fun p q : List Char × List Char => p.1 ≠ q.1) (invert d) := by
    unfold invert
    rw [List.pairwise_map]
    exact hv
  exact lookupKey_of_mem (invert d) hkinv v k hmem2

/-- The substitution of an `@SQ` line still begins with `@SQ`: the first
three characters are emitted as literals (the `S` candidate at index 1
fails at `Q`). -/
theorem startsWithSQ_subSN (d : Dict) (line : List Char)
    (h : startsWithSQ line = true) : startsWithSQ (subSN d line) = true := by
  rcases line with _ | ⟨a, _ | ⟨b, _ | ⟨c, rest⟩⟩⟩
  · simp [startsWithSQ] at h
  · simp [startsWithSQ] at h
  · simp [startsWithSQ] at h
  · have h3 : (a = '@' ∧ b = 'S') ∧ c = 'Q' := by
      simpa [startsWithSQ] using h
    obtain ⟨⟨rfl, rfl⟩, rfl⟩ := h3
    have e0 : segStep (.normal false) '@' = ([.lit '@'], .normal false) := by decide
    have e1 : segStep (.normal false) 'S' = ([], .s1) := by decide
    have e2 : segStep .s1 'Q' = ([.lit 'S', .lit 'Q'], .normal true) := by decide
    show startsWithSQ (concatMap (renderSeg d)
      (segRun (.normal false) ('@' :: 'S' :: 'Q' :: rest))) = true
    rw [segRun_cons, e0]
    simp only [List.cons_append, List.nil_append]
    rw [segRun_cons, e1]
    simp only [List.nil_append]
    rw [segRun_cons, e2]
    simp only [List.cons_append, List.nil_append]
    rw [concatMap_cons, concatMap_cons, concatMap_cons]
    simp [renderSeg, startsWithSQ]

/-- Rendering mapped tags undoes the mapping when the second lookup sends
each mapped group back to the original group. -/
theorem render_mapTagNames_eq_flatten (d2 : Dict) (g : List Char → List Char)
    (segs : List SNSeg)
    (h : ∀ n ∈ tagNames segs, dictGet d2 (g n) (g n) = n) :
    concatMap (renderSeg d2) (mapTagNames g segs) = concatMap flattenSeg segs := by
  induction segs with
  | nil => rfl
  | cons s ss ih =>
    cases s with
    | lit c =>
      have hss : ∀ n ∈ tagNames ss, dictGet d2 (g n) (g n) = n := by
        intro n hn; exact h n (by simpa [tagNames] using hn)
      rw [mapTagNames_cons]
      simp only [concatMap_cons]
      rw [ih hss]
      rfl
    | tag n =>
      have hn : dictGet d2 (g n) (g n) = n := h n (by simp [tagNames])
      have hss : ∀ m ∈ tagNames ss, dictGet d2 (g m) (g m) = m := by
        intro m hm; exact h m (by simp [tagNames, hm])
      rw [mapTagNames_cons]
      simp only [concatMap_cons]
      rw [ih hss]
      simp [renderSeg, flattenSeg, replace_sn, hn]

/-- C8, amended: for a table with pairwise distinct keys and pairwise
distinct, nonempty, whitespace-free values (so that the inverse is a
well-defined mapping table usable on SN tokens), transforming with the
table and then with its inverse restores any line all of whose SN names
are keys of the table — in particular the original SN value.  (Without
the names-are-keys hypothesis the claim fails, see the counterexample:
an unmapped name that happens to be a value of the table is rewritten by
the inverse pass.) -/
theorem C8_inverse_round_trip (d : Dict) (line : List Char)
    (hk : (d.map fun p => p.1).Nodup)
    (hv : (d.map fun p => p.2).Nodup)
    (hgood : ∀ p ∈ d, p.2 ≠ [] ∧ noSpace p.2)
    (hnames : ∀ n ∈ snNames line, containsKey d n = true) :
    remap_chromosome_in_line (invert d) (remap_chromosome_in_line d line) = line := by
  have hkp : List.Pairwise (fun p q : List Char × List Char => p.1 ≠ q.1) d :=
    List.pairwise_map.mp hk
  have hvp : List.Pairwise (fun p q : List Char × List Char => p.2 ≠ q.2) d :=
    List.pairwise_map.mp hv
  by_cases hsq : startsWithSQ line = true
  · have hgood2 : ∀ p ∈ d, goodTag p.2 := fun p hp => hgood p hp
    have h1 : remap_chromosome_in_line d line = subSN d line := by
      simp [remap_chromosome_in_line, hsq]
    have h2 : startsWithSQ (subSN d line) = true := startsWithSQ_subSN d line hsq
    have hres := rescan_segRun d hgood2 line (.normal false) trivial
    simp only [rescanSt] at hres
    have hnames2 : ∀ n ∈ tagNames (SN_TAG_PATTERN line),
        dictGet (invert d) (dictGet d n n) (dictGet d n n) = n := by
      intro n hn
      obtain ⟨v, hlv⟩ := containsKey_lookup d n (hnames n hn)
      have hinv := invert_lookup d hkp hvp n v hlv
      simp [dictGet, hlv, hinv]
    rw [h1]
    calc remap_chromosome_in_line (invert d) (subSN d line)
        = subSN (invert d) (subSN d line) := by
          simp [remap_chromosome_in_line, h2]
      _ = concatMap (renderSeg (invert d))
            (mapTagNames (fun n => dictGet d n n) (SN_TAG_PATTERN line)) := by
          show concatMap (renderSeg (invert d))
            (segRun (.normal false) (concatMap (renderSeg d)
              (segRun (.normal false) line))) = _
          rw [hres]
          rfl
      _ = concatMap flattenSeg (SN_TAG_PATTERN line) :=
          render_mapTagNames_eq_flatten (invert d) _ _ hnames2
      _ = line := flatten_SN_TAG_PATTERN line
  · have h1 : remap_chromosome_in_line d line = line := by
      simp [remap_chromosome_in_line, hsq]
    rw [h1]
    simp [remap_chromosome_in_line, hsq]

theorem C8_inverse_round_trip_w :
    (exDictXA.map fun p => p.1).Nodup ∧
      (exDictXA.map fun p => p.2).Nodup ∧
      (∀ p ∈ exDictXA, p.2 ≠ [] ∧ noSpace p.2) ∧
      (∀ n ∈ snNames sqLineX, containsKey exDictXA n = true) ∧
      remap_chromosome_in_line (invert exDictXA)
        (remap_chromosome_in_line exDictXA sqLineX) = sqLineX :=
  ⟨by decide, by decide, by decide, by decide,
    C8_inverse_round_trip exDictXA sqLineX (by decide) (by decide) (by decide) (by decide)⟩

theorem splitTab_ne_nil (s : List Char) : splitTab s ≠ [] := by
  cases s with
  | nil => simp [splitTab]
  | cons c rest =>
    unfold splitTab
    by_cases hc : c = '\t'
    · simp [hc]
    · rw [if_neg hc]
      cases splitTab rest <;> simp

theorem splitTab_no_tab (s : List Char) : ∀ f ∈ splitTab s, '\t' ∉ f := by
  induction s with
  | nil =>
    intro f hf
    have : f = [] := by simpa [splitTab] using hf
    simp [this]
  | cons c rest ih =>
    intro f hf
    unfold splitTab at hf
    by_cases hc : c = '\t'
    · rw [if_pos hc] at hf
      rcases List.mem_cons.mp hf with rfl | hf2
      · simp
      · exact ih f hf2
    · rw [if_neg hc] at hf
      cases hsp : splitTab rest with
      | nil => exact absurd hsp (splitTab_ne_nil rest)
      | cons f0 fs =>
        rw [hsp] at hf
        rcases List.mem_cons.mp hf with rfl | hf2
        · intro htab
          rcases List.mem_cons.mp htab with heq | hmem
          · exact hc heq.symm
          · exact ih f0 (by rw [hsp]; exact List.mem_cons_self f0 fs) hmem
        · exact ih f (by rw [hsp]; exact List.mem_cons_of_mem f0 hf2)

theorem joinTab_cons2 (f g : List Char) (fs : List (List Char)) :
    joinTab (f :: g :: fs) = f ++ '\t' :: joinTab (g :: fs) := rfl

/-- Splitting on tabs loses nothing: rejoining the fields with tabs gives
back the string. -/
theorem joinTab_splitTab (s : List Char) : joinTab (splitTab s) = s := by
  induction s with
  | nil => rfl
  | cons c rest ih =>
    unfold splitTab
    by_cases hc : c = '\t'
    · rw [if_pos hc]
      cases hsp : splitTab rest with
      | nil => exact absurd hsp (splitTab_ne_nil rest)
      | cons f0 fs =>
        rw [joinTab_cons2, ← hsp, ih, hc]
        simp
    · rw [if_neg hc]
      cases hsp : splitTab rest with
      | nil => exact absurd hsp (splitTab_ne_nil rest)
      | cons f0 fs =>
        cases fs with
        | nil =>
          show joinTab [c :: f0] = c :: rest
          show c :: f0 = c :: rest
          rw [show f0 = joinTab [f0] from rfl, ← hsp, ih]
        | cons f1 fs2 =>
          rw [joinTab_cons2]
          show c :: (f0 ++ '\t' :: joinTab (f1 :: fs2)) = c :: rest
          rw [← joinTab_cons2, ← hsp, ih]

/-- C2, amended: the loader strips whitespace only from the whole line
(both ends, as `line.strip()` does) and uses the split fields verbatim:
the stored key is the first tab-separated field of the stripped line, kept
exactly (whitespace adjacent to an interior tab is not removed), and the
stored value is either the key itself (fallback) or the second field of
the stripped line kept exactly.  Trimming enters only the emptiness tests:
the key trims to nonempty, and a stored second field trims to nonempty. -/
theorem C2_fields_used_verbatim (s k v : List Char)
    (h : parseLine s = some (k, v)) :
    pystrip k ≠ [] ∧ '\t' ∉ k ∧
      (∃ rest, pystrip s = k ++ rest ∧ (rest = [] ∨ ∃ r2, rest = '\t' :: r2)) ∧
      (v = k ∨ (pystrip v ≠ [] ∧ '\t' ∉ v ∧
        ∃ post, pystrip s = k ++ '\t' :: v ++ post ∧
          (post = [] ∨ ∃ p2, post = '\t' :: p2))) := by
  unfold parseLine at h
  rcases hsp : splitTab (pystrip s) with _ | ⟨p0, rest⟩ <;> rw [hsp] at h
  · simp at h
  · by_cases h0 : pystrip p0 = []
    · simp [h0] at h
    · have hrecon : joinTab (p0 :: rest) = pystrip s := by
        rw [← hsp, joinTab_splitTab]
      have hp0mem : p0 ∈ splitTab (pystrip s) := by
        rw [hsp]; exact List.mem_cons_self p0 rest
      have hktab : '\t' ∉ p0 := splitTab_no_tab (pystrip s) p0 hp0mem
      rcases rest with _ | ⟨p1, rest2⟩
      · simp [h0] at h
        obtain ⟨rfl, rfl⟩ := h
        refine ⟨h0, hktab, ⟨[], ?_, Or.inl rfl⟩, Or.inl rfl⟩
        rw [← hrecon]
        simp [joinTab]
      · have hp1mem : p1 ∈ splitTab (pystrip s) := by
          rw [hsp]; exact List.mem_cons_of_mem p0 (List.mem_cons_self p1 rest2)
        have hvtab : '\t' ∉ p1 := splitTab_no_tab (pystrip s) p1 hp1mem
        by_cases h1 : pystrip p1 = []
        · simp [h0, h1] at h
          obtain ⟨rfl, rfl⟩ := h
          refine ⟨h0, hktab, ⟨'\t' :: joinTab (p1 :: rest2), ?_, Or.inr ⟨_, rfl⟩⟩,
            Or.inl rfl⟩
          rw [← hrecon, joinTab_cons2]
        · simp [h0, h1] at h
          obtain ⟨rfl, rfl⟩ := h
          refine ⟨h0, hktab, ⟨'\t' :: joinTab (p1 :: rest2), ?_, Or.inr ⟨_, rfl⟩⟩,
            Or.inr ⟨h1, hvtab, ?_⟩⟩
          · rw [← hrecon, joinTab_cons2]
          · rcases rest2 with _ | ⟨p2, rest3⟩
            · refine ⟨[], ?_, Or.inl rfl⟩
              rw [← hrecon]
              simp [joinTab]
            · refine ⟨'\t' :: joinTab (p2 :: rest3), ?_, Or.inr ⟨_, rfl⟩⟩
              rw [← hrecon, joinTab_cons2, joinTab_cons2]
              simp

theorem C2_fields_used_verbatim_w :
    parseLine spacedMapLine = some (['a', ' '], [' ', 'b']) ∧
      (pystrip ['a', ' '] ≠ [] ∧ '\t' ∉ (['a', ' '] : List Char) ∧
        (∃ rest, pystrip spacedMapLine = ['a', ' '] ++ rest ∧
          (rest = [] ∨ ∃ r2, rest = '\t' :: r2)) ∧
        ((([' ', 'b'] : List Char) = ['a', ' ']) ∨
          (pystrip [' ', 'b'] ≠ [] ∧ '\t' ∉ ([' ', 'b'] : List Char) ∧
            ∃ post, pystrip spacedMapLine = ['a', ' '] ++ '\t' :: [' ', 'b'] ++ post ∧
              (post = [] ∨ ∃ p2, post = '\t' :: p2)))) :=
  ⟨by decide, C2_fields_used_verbatim spacedMapLine ['a', ' '] [' ', 'b'] (by decide)⟩

/-- C9: when opening or reading the mapping file fails (the file does not
exist, or an operating-system error occurs while reading), the process
exits with a non-zero status, writes no output line, consumes no input
line, and prints to the error stream a single diagnostic line containing
the offending path. -/
theorem C9_load_failure_diagnostic (path emsg : List Char)
    (stdin : List (List Char)) (fo : FileOutcome)
    (h : fo = FileOutcome.notFound ∨ fo = FileOutcome.osError emsg) :
    (runProgram path fo stdin).exitCode ≠ 0 ∧
      (runProgram path fo stdin).stdoutLines = [] ∧
      (runProgram path fo stdin).stdinConsumed = 0 ∧
      ∃ pre post, (runProgram path fo stdin).stderrLines = [pre ++ (path ++ post)] := by
  rcases h with rfl | rfl
  · refine ⟨by simp [runProgram], by simp [runProgram], by simp [runProgram], ?_⟩
    refine ⟨['E', 'r', 'r', 'o', 'r', ':', ' ', 'F', 'i', 'l', 'e', ' ', '\''],
      ['\'', ' ', 'n', 'o', 't', ' ', 'f', 'o', 'u', 'n', 'd', '.'], ?_⟩
    simp [runProgram, notFoundMsg]
  · refine ⟨by simp [runProgram], by simp [runProgram], by simp [runProgram], ?_⟩
    refine ⟨['E', 'r', 'r', 'o', 'r', ' ', 'r', 'e', 'a', 'd', 'i', 'n', 'g', ' ',
        'f', 'i', 'l', 'e', ' ', '\''], ['\'', ':', ' '] ++ emsg, ?_⟩
    simp [runProgram, osErrorMsg]

theorem C9_load_failure_diagnostic_w :
    (runProgram ['m'] FileOutcome.notFound [['x']]).exitCode ≠ 0 ∧
      (runProgram ['m'] FileOutcome.notFound [['x']]).stdoutLines = [] ∧
      (runProgram ['m'] FileOutcome.notFound [['x']]).stdinConsumed = 0 ∧
      ∃ pre post,
        (runProgram ['m'] FileOutcome.notFound [['x']]).stderrLines =
          [pre ++ (['m'] ++ post)] :=
  C9_load_failure_diagnostic ['m'] [] [['x']] FileOutcome.notFound (Or.inl rfl)

end ChromosomeMapping
